import Mathlib

/-!
Verification of the auto-subtitle pipeline (`auto_subtitle/cli.py`).

The development shallowly embeds the subtitle-generation and composition
pipeline: timestamps are modelled in whole milliseconds (`Nat`), strings as
Lean `String`/`List Char`, and the side-effecting orchestration of `main`,
`get_audio` and `get_subtitles` as pure functions that return the ordered
trace of external-engine events together with the values the Python code
threads through its dictionaries.
-/

namespace AutoSubtitle

/-- A timed transcript segment as produced by the recognition engine.
`start` and `stop` are times in milliseconds (the SRT format's resolution);
`id` models the identifier whisper attaches to each segment, which the
subtitle writer must ignore. -/
structure Segment where
  id : Nat
  start : Nat
  stop : Nat
  text : String
deriving DecidableEq, Repr

/-! ### Decimal digits

Helpers for rendering and reading zero-padded decimal fields of the
`HH:MM:SS,mmm` timestamp form. -/

/-- The ASCII digit character for `d < 10`. -/
def digitChar (d : Nat) : Char := Char.ofNat (48 + d)

/-- Fuel-indexed big-endian decimal digits of a natural number. -/
def digitsAux : Nat → Nat → List Char
  | 0, _ => []
  | fuel + 1, n =>
    if n < 10 then [digitChar n]
    else digitsAux fuel (n / 10) ++ [digitChar (n % 10)]

/-- Big-endian decimal digits of `n` (no leading zeros, `[0]` for zero). -/
def natDigits (n : Nat) : List Char := digitsAux (n + 1) n

/-- `n` rendered in decimal, left-padded with zeros to at least `w` digits. -/
def padDigits (w n : Nat) : List Char :=
  List.replicate (w - (natDigits n).length) '0' ++ natDigits n

/-- Numeric value of a big-endian digit string. -/
def charsVal (cs : List Char) : Nat :=
  cs.foldl (fun a c => a * 10 + (c.toNat - 48)) 0

/-- Every character is an ASCII decimal digit. -/
def allDigits (cs : List Char) : Bool := cs.all (fun c => c.isDigit)

/-! ### The subtitle writer

Modelled from the spec: `write_srt` (and the timestamp formatter it uses)
live in the repository's `utils` module, which is not under `src/`; only its
call site `write_srt(result["segments"], file=srt)` in `cli.py` is.  Per
spec §4.4, each segment becomes a block: a 1-based sequential index line, a
timestamp line `HH:MM:SS,mmm --> HH:MM:SS,mmm` (comma millisecond
separator, zero-padded two-digit hours/minutes/seconds and three-digit
milliseconds), the text line(s), and a trailing blank line. -/

/-- Modelled from the spec: the `HH:MM:SS,mmm` timestamp rendering of a time
given in milliseconds (spec §4.4). -/
def tsChars (t : Nat) : List Char :=
  padDigits 2 (t / 3600000) ++ ':' ::
    (padDigits 2 (t / 60000 % 60) ++ ':' ::
      (padDigits 2 (t / 1000 % 60) ++ ',' :: padDigits 3 (t % 1000)))

/-- The ` --> ` separator of an SRT timestamp line. -/
def arrowSep : List Char := [' ', '-', '-', '>', ' ']

/-- One SRT block: index line, timestamp line, text line(s), blank line. -/
def blockChars (i : Nat) (s : Segment) : List Char :=
  natDigits i ++ '\n' ::
    (tsChars s.start ++ arrowSep ++ tsChars s.stop ++ '\n' ::
      (s.text.data ++ ['\n', '\n']))

/-- Blocks for the segments, indexed sequentially from `i`. -/
def writeCharsFrom (i : Nat) : List Segment → List Char
  | [] => []
  | s :: rest => blockChars i s ++ writeCharsFrom (i + 1) rest

/-- Modelled from the spec: `write_srt` from `utils` — serializes the
ordered segment sequence into SRT text, indices starting at 1 (spec §4.4).
The segment's `id` is not consulted; indices are purely positional. -/
def write_srt (segs : List Segment) : String :=
  String.mk (writeCharsFrom 1 segs)

/-! ### A conformant SRT reader

The reader used to state the write/re-parse round-trip: it consumes blocks
of the fixed format — an all-digits index line, a timestamp line, text
lines up to a blank line — and returns the `(start, stop, text)` triples. -/

/-- Split off the first line (up to and consuming a newline). -/
def takeLine : List Char → List Char × List Char
  | [] => ([], [])
  | c :: rest =>
    if c = '\n' then ([], rest)
    else
      let p := takeLine rest
      (c :: p.1, p.2)

/-- Consume text lines up to and including the terminating blank line,
returning the lines and the remaining input. -/
def takeTextLines : List Char → List Char → List (List Char) × List Char
  | cur, [] => if cur = [] then ([], []) else ([cur.reverse], [])
  | cur, c :: rest =>
    if c = '\n' then
      if cur = [] then ([], rest)
      else
        let p := takeTextLines [] rest
        (cur.reverse :: p.1, p.2)
    else takeTextLines (c :: cur) rest

/-- Re-join text lines with newlines. -/
def joinLines : List (List Char) → List Char
  | [] => []
  | [l] => l
  | l :: ls => l ++ '\n' :: joinLines ls

/-- Split at the first occurrence of `ch` (consuming it); `none` if absent. -/
def breakAt (ch : Char) : List Char → Option (List Char × List Char)
  | [] => none
  | c :: rest =>
    if c = ch then some ([], rest)
    else (breakAt ch rest).map (fun p => (c :: p.1, p.2))

/-- Read a (nonempty, all-digits) index line's value. -/
def parseIndex (cs : List Char) : Option Nat :=
  if cs ≠ [] ∧ allDigits cs then some (charsVal cs) else none

/-- Read one `HH:MM:SS,mmm` timestamp back to milliseconds, insisting on
two-digit minute and second fields and a three-digit millisecond field. -/
def parseTimestamp (cs : List Char) : Option Nat := do
  let (h, r1) ← breakAt ':' cs
  let (m, r2) ← breakAt ':' r1
  let (s, l) ← breakAt ',' r2
  if h ≠ [] ∧ allDigits h ∧ m.length = 2 ∧ allDigits m ∧
      s.length = 2 ∧ allDigits s ∧ l.length = 3 ∧ allDigits l then
    some (((charsVal h * 60 + charsVal m) * 60 + charsVal s) * 1000 + charsVal l)
  else none

/-- Read a `start --> stop` timestamp line. -/
def parseTsLine (cs : List Char) : Option (Nat × Nat) := do
  let (a, r) ← breakAt ' ' cs
  match r with
  | '-' :: '-' :: '>' :: ' ' :: b => do
    let t1 ← parseTimestamp a
    let t2 ← parseTimestamp b
    some (t1, t2)
  | _ => none

/-- Read one SRT block — index line, timestamp line, text lines up to the
blank line — returning its `(start, stop, text)` triple and the remaining
input. -/
def parseOneBlock (cs : List Char) : Option ((Nat × Nat × String) × List Char) :=
  let p1 := takeLine cs
  match parseIndex p1.1 with
  | none => none
  | some _ =>
    let p2 := takeLine p1.2
    match parseTsLine p2.1 with
    | none => none
    | some tt =>
      let p3 := takeTextLines [] p2.2
      some ((tt.1, tt.2, String.mk (joinLines p3.1)), p3.2)

/-- Read a sequence of SRT blocks (fuel-indexed; each block consumes at
least one character, so input length is always enough fuel). -/
def parseBlocks : Nat → List Char → Option (List (Nat × Nat × String))
  | 0, cs => if cs = [] then some [] else none
  | fuel + 1, cs =>
    if cs = [] then some []
    else
      match parseOneBlock cs with
      | none => none
      | some br =>
        match parseBlocks fuel br.2 with
        | none => none
        | some bs => some (br.1 :: bs)

/-- The conformant reader: parse a whole SRT file. -/
def parseSrt (s : String) : Option (List (Nat × Nat × String)) :=
  parseBlocks s.data.length s.data

/-- The segment texts for which the SRT format can be faithful: a nonempty
sequence of nonempty newline-free lines (so the serialized text contains no
blank line, which the format reserves as the block terminator). -/
def TextOk (t : String) : Prop :=
  ∃ lines : List (List Char), lines ≠ [] ∧
    (∀ l ∈ lines, l ≠ [] ∧ '\n' ∉ l) ∧ t.data = joinLines lines

/-! ### Style resolution (`COLORS`, cli.py lines 10–19 and 60/66) -/

/-- The color-name → hex table of `cli.py` (`COLORS`), in source order. -/
def COLORS : List (String × String) :=
  [("black", "&H000000"),
   ("white", "&HFFFFFF"),
   ("red", "&HFF0000"),
   ("green", "&H00FF00"),
   ("blue", "&H0000FF"),
   ("yellow", "&HFFFF00"),
   ("cyan", "&H00FFFF"),
   ("magenta", "&HFF00FF")]

/-- `str.lower()` on the color argument (cli.py line 60), restricted to the
ASCII case mapping. -/
def lowerStr (s : String) : String := String.mk (s.data.map Char.toLower)

/-- `COLORS.get(color_name, "&H00FF00")` after lowering (cli.py lines 60
and 66): unknown names default to the green hex value. -/
def resolveColor (color_arg : String) : String :=
  (List.lookup (lowerStr color_arg) COLORS).getD "&H00FF00"

/-! ### Language decision (cli.py lines 70–76) -/

/-- `model_name.endswith(".en")`, via character lists. -/
def strEndsWith (s suffix : String) : Bool := suffix.data.isSuffixOf s.data

/-- The language entry placed into the transcription keyword arguments
(`none` = left absent, so the engine auto-detects), together with whether
the English-only override warning was emitted (cli.py lines 70–76). -/
def decideLanguage (model_name language : String) : Option String × Bool :=
  if strEndsWith model_name ".en" then (some "en", true)
  else if language ≠ "auto" then (some language, false)
  else (none, false)

/-! ### Artifact paths -/

/-- Modelled from the spec: `filename` from `utils` (not under `src/`) —
the input path's base name, "path minus directory and extension"
(spec §3): the part after the last `/`. -/
def afterLastSlash (cs : List Char) : List Char :=
  cs.foldl (fun acc c => if c = '/' then [] else acc ++ [c]) []

/-- Modelled from the spec: drop the extension — everything from the last
`.` on — keeping the name whole when it has no dot. -/
def dropExt (cs : List Char) : List Char :=
  match cs.reverse.dropWhile (fun c => c ≠ '.') with
  | [] => cs
  | _ :: rest => rest.reverse

/-- Modelled from the spec: `filename` from `utils` — base name minus
directory and extension (spec §3). -/
def filename (p : String) : String := String.mk (dropExt (afterLastSlash p.data))

/-- `os.path.join` for the directory/name shapes the pipeline uses. -/
def joinPath (d n : String) : String :=
  if d = "" then n
  else if d.data.getLast? = some '/' then d ++ n else d ++ "/" ++ n

/-- The audio artifact path `<temp-dir>/<base-name>.wav` (cli.py line 109). -/
def audioPathFor (tmp p : String) : String := joinPath tmp (filename p ++ ".wav")

/-- The subtitle path chosen inside `get_subtitles` (cli.py lines 125–126):
under `output_dir` when its `output_srt` parameter is set, else under the
system temp directory. -/
def srtPathIn (output_srt : Bool) (output_dir tmp p : String) : String :=
  joinPath (if output_srt then output_dir else tmp) (filename p ++ ".srt")

/-- The composed video path `<output-dir>/<base-name>.mp4` (cli.py line 88). -/
def outPathFor (output_dir p : String) : String :=
  joinPath output_dir (filename p ++ ".mp4")

/-! ### The orchestrator (`main`, `get_audio`, `get_subtitles`) -/

/-- The configuration `main` distributes to the pipeline stages. -/
structure Config where
  output_dir : String
  output_srt : Bool
  srt_only : Bool
deriving DecidableEq, Repr

/-- One external-engine invocation, in the order the pipeline performs
them. -/
inductive Event where
  | extract (video audioPath : String)
  | transcribe (video audioPath : String)
  | writeSub (video srtPath : String)
  | compose (video srtPath outPath : String)
deriving DecidableEq, Repr

/-- `get_audio` (cli.py lines 102–118): per input path, run the extraction
and record `path → <temp>/<base>.wav`; returns the ordered path map and the
ordered extraction events. -/
def get_audioRun (tmp : String) : List String → List (String × String) × List Event
  | [] => ([], [])
  | p :: rest =>
    let r := get_audioRun tmp rest
    ((p, audioPathFor tmp p) :: r.1, Event.extract p (audioPathFor tmp p) :: r.2)

/-- `get_subtitles` (cli.py lines 121–141): per `(path, audio_path)` pair,
transcribe then write the SRT file; returns the ordered `path → srt_path`
map and the ordered transcription/write events. -/
def get_subtitlesRun (output_srt : Bool) (output_dir tmp : String) :
    List (String × String) → List (String × String) × List Event
  | [] => ([], [])
  | (p, ap) :: rest =>
    let srt := srtPathIn output_srt output_dir tmp p
    let r := get_subtitlesRun output_srt output_dir tmp rest
    ((p, srt) :: r.1, Event.transcribe p ap :: Event.writeSub p srt :: r.2)

/-- The composition loop of `main` (cli.py lines 87–97), as events. -/
def composeEvents (output_dir : String) : List (String × String) → List Event
  | [] => []
  | (p, sp) :: rest =>
    Event.compose p sp (outPathFor output_dir p) :: composeEvents output_dir rest

/-- The `path → srt_path` map `main` receives from `get_subtitles`: the
storage flag passed down is `output_srt or srt_only` (cli.py line 81). -/
def subtitlesMap (cfg : Config) (tmp : String) (videos : List String) :
    List (String × String) :=
  (get_subtitlesRun (cfg.output_srt || cfg.srt_only) cfg.output_dir tmp
    (get_audioRun tmp videos).1).1

/-- The ordered trace of engine invocations `main` performs (cli.py lines
79–97): all extractions, then per video transcription and subtitle write,
then — unless `srt_only` — the composition loop. -/
def pipelineTrace (cfg : Config) (tmp : String) (videos : List String) : List Event :=
  let a := get_audioRun tmp videos
  let s := get_subtitlesRun (cfg.output_srt || cfg.srt_only) cfg.output_dir tmp a.1
  a.2 ++ s.2 ++ (if cfg.srt_only then [] else composeEvents cfg.output_dir s.1)

/-- Whether an event is a composition. -/
def isComposeEv : Event → Bool
  | Event.compose _ _ _ => true
  | _ => false

/-- Whether an event is a subtitle-file write. -/
def isWriteSubEv : Event → Bool
  | Event.writeSub _ _ => true
  | _ => false

/-- The file an event writes, if any (transcription writes nothing). -/
def eventWrite : Event → Option String
  | Event.extract _ ap => some ap
  | Event.transcribe _ _ => none
  | Event.writeSub _ sp => some sp
  | Event.compose _ _ op => some op

/-- The ordered file writes of one pipeline run. -/
def runWrites (cfg : Config) (tmp : String) (videos : List String) : List String :=
  (pipelineTrace cfg tmp videos).filterMap eventWrite

/-- The composition loop of `main` under a media engine that fails on the
videos selected by `fails`: the Python loop has no exception handler, so
the outputs are those composed before the first failure, which is returned
as the uncaught error. -/
def composeRun (fails : String → Bool) (output_dir : String) :
    List (String × String) → List String × Option String
  | [] => ([], none)
  | (p, _) :: rest =>
    if fails p then ([], some p)
    else
      let r := composeRun fails output_dir rest
      (outPathFor output_dir p :: r.1, r.2)

/-! ### A file-system abstraction for overwrite semantics -/

/-- Record a written path, keeping the path set duplicate-free. -/
def addKey (ks : List String) (k : String) : List String :=
  if k ∈ ks then ks else ks ++ [k]

/-- The path set after performing the writes `ws` on top of `ks`
(`overwrite_output=True`: an existing path is overwritten in place). -/
def keysAfter (ks : List String) (ws : List String) : List String :=
  ws.foldl addKey ks

/-- An overwriting write of content `v` at path `k`. -/
def setFS : List (String × Nat) → String → Nat → List (String × Nat)
  | [], k, v => [(k, v)]
  | (k0, v0) :: rest, k, v =>
    if k0 = k then (k0, v) :: rest else (k0, v0) :: setFS rest k v

/-- The event order claimed by spec §5, stated in the spec's words: audio
extraction, transcription, and composition for one video all happen before
the next video's audio extraction begins — i.e. the trace is grouped video
by video. Kept for comparison with the trace the code actually produces. -/
def perVideoTrace (cfg : Config) (tmp : String) (videos : List String) : List Event :=
  videos.flatMap fun p =>
    [Event.extract p (audioPathFor tmp p),
     Event.transcribe p (audioPathFor tmp p),
     Event.writeSub p (srtPathIn (cfg.output_srt || cfg.srt_only) cfg.output_dir tmp p)]
    ++ (if cfg.srt_only then []
        else [Event.compose p (srtPathIn (cfg.output_srt || cfg.srt_only) cfg.output_dir tmp p)
                (outPathFor cfg.output_dir p)])

/-! ## Helper lemmas about the orchestrator -/

theorem get_audioRun_eq (tmp : String) (paths : List String) :
    get_audioRun tmp paths =
      (paths.map fun p => (p, audioPathFor tmp p),
       paths.map fun p => Event.extract p (audioPathFor tmp p)) := by
  induction paths with
  | nil => rfl
  | cons p rest ih => simp [get_audioRun, ih]

theorem get_subtitlesRun_eq (b : Bool) (d tmp : String) (prs : List (String × String)) :
    get_subtitlesRun b d tmp prs =
      (prs.map fun pr => (pr.1, srtPathIn b d tmp pr.1),
       prs.flatMap fun pr =>
         [Event.transcribe pr.1 pr.2, Event.writeSub pr.1 (srtPathIn b d tmp pr.1)]) := by
  induction prs with
  | nil => rfl
  | cons pr rest ih =>
    obtain ⟨p, ap⟩ := pr
    simp [get_subtitlesRun, ih]

theorem composeEvents_eq (d : String) (prs : List (String × String)) :
    composeEvents d prs = prs.map fun pr => Event.compose pr.1 pr.2 (outPathFor d pr.1) := by
  induction prs with
  | nil => rfl
  | cons pr rest ih =>
    obtain ⟨p, sp⟩ := pr
    simp [composeEvents, ih]

theorem subtitlesMap_eq (cfg : Config) (tmp : String) (videos : List String) :
    subtitlesMap cfg tmp videos =
      videos.map fun p =>
        (p, srtPathIn (cfg.output_srt || cfg.srt_only) cfg.output_dir tmp p) := by
  simp [subtitlesMap, get_audioRun_eq, get_subtitlesRun_eq, List.map_map, Function.comp]

theorem pipelineTrace_eq (cfg : Config) (tmp : String) (videos : List String) :
    pipelineTrace cfg tmp videos =
      videos.map (fun p => Event.extract p (audioPathFor tmp p))
      ++ videos.flatMap (fun p =>
           [Event.transcribe p (audioPathFor tmp p),
            Event.writeSub p (srtPathIn (cfg.output_srt || cfg.srt_only) cfg.output_dir tmp p)])
      ++ (if cfg.srt_only then []
          else videos.map fun p =>
            Event.compose p (srtPathIn (cfg.output_srt || cfg.srt_only) cfg.output_dir tmp p)
              (outPathFor cfg.output_dir p)) := by
  unfold pipelineTrace
  by_cases hs : cfg.srt_only = true <;>
    simp [hs, get_audioRun_eq, get_subtitlesRun_eq, composeEvents_eq, List.map_map,
      List.flatMap_map, Function.comp_def]

theorem lookup_map_self (f : String → String) (vs : List String) (p : String) (h : p ∈ vs) :
    List.lookup p (vs.map fun q => (q, f q)) = some (f p) := by
  induction vs with
  | nil => cases h
  | cons q rest ih =>
    simp only [List.map_cons, List.lookup]
    by_cases hq : p = q
    · subst hq; simp
    · have hb : (p == q) = false := by simp [hq]
      rw [hb]
      refine ih ?_
      rcases List.mem_cons.mp h with rfl | hm
      · exact absurd rfl hq
      · exact hm

theorem mem_addKey (ks : List String) (k a : String) (h : a ∈ ks) : a ∈ addKey ks k := by
  unfold addKey
  split
  · exact h
  · simp [h]

theorem mem_addKey_self (ks : List String) (k : String) : k ∈ addKey ks k := by
  unfold addKey
  split
  · assumption
  · simp

theorem mem_keysAfter_of_mem (ws : List String) :
    ∀ ks a, a ∈ ks → a ∈ keysAfter ks ws := by
  induction ws with
  | nil => intro ks a h; exact h
  | cons w rest ih =>
    intro ks a h
    simp only [keysAfter, List.foldl_cons]
    exact ih _ _ (mem_addKey _ _ _ h)

theorem mem_keysAfter (ws : List String) : ∀ ks a, a ∈ ws → a ∈ keysAfter ks ws := by
  induction ws with
  | nil => intro ks a h; cases h
  | cons w rest ih =>
    intro ks a h
    simp only [keysAfter, List.foldl_cons]
    rcases List.mem_cons.mp h with rfl | hm
    · exact mem_keysAfter_of_mem rest _ _ (mem_addKey_self ks a)
    · exact ih _ _ hm

theorem keysAfter_of_mem (ws : List String) :
    ∀ ks, (∀ w ∈ ws, w ∈ ks) → keysAfter ks ws = ks := by
  induction ws with
  | nil => intro ks _; rfl
  | cons w rest ih =>
    intro ks h
    have hw : addKey ks w = ks := by unfold addKey; simp [h w (by simp)]
    simp only [keysAfter, List.foldl_cons, hw]
    exact ih ks (fun u hu => h u (by simp [hu]))

/-! ## C3 — English-only models force English -/

/-- C3: for every model identifier ending in `.en` and every requested
language value, the language placed into the transcription arguments is
`"en"`, and the override warning is emitted (cli.py lines 70–73). -/
theorem english_only_forces_en (model_name language : String)
    (h : strEndsWith model_name ".en" = true) :
    decideLanguage model_name language = (some "en", true) := by
  simp [decideLanguage, h]

/-- C3 witness: the English-only model `small.en` with the explicit
language request `tr`. -/
theorem english_only_forces_en_witness :
    strEndsWith "small.en" ".en" = true ∧
      decideLanguage "small.en" "tr" = (some "en", true) :=
  ⟨by decide, english_only_forces_en "small.en" "tr" (by decide)⟩

/-! ## C4 — color resolution -/

/-- C4: after ASCII lowering, each of the eight palette names resolves to
its fixed hex entry from `COLORS`, and every other string resolves to the
default green `"&H00FF00"` without failing; in particular `"RED"` hits the
palette case-insensitively and the non-palette `"Purple"` gets the default
(cli.py lines 10–19, 60, 66). -/
theorem resolve_color_palette :
    (∀ s : String,
      resolveColor s =
        if lowerStr s = "black" then "&H000000"
        else if lowerStr s = "white" then "&HFFFFFF"
        else if lowerStr s = "red" then "&HFF0000"
        else if lowerStr s = "green" then "&H00FF00"
        else if lowerStr s = "blue" then "&H0000FF"
        else if lowerStr s = "yellow" then "&HFFFF00"
        else if lowerStr s = "cyan" then "&H00FFFF"
        else if lowerStr s = "magenta" then "&HFF00FF"
        else "&H00FF00")
    ∧ resolveColor "RED" = "&HFF0000" ∧ resolveColor "Purple" = "&H00FF00" := by
  refine ⟨fun s => ?_, by decide, by decide⟩
  split_ifs with h1 h2 h3 h4 h5 h6 h7 h8
  · simp only [resolveColor]; rw [h1]; decide
  · simp only [resolveColor]; rw [h2]; decide
  · simp only [resolveColor]; rw [h3]; decide
  · simp only [resolveColor]; rw [h4]; decide
  · simp only [resolveColor]; rw [h5]; decide
  · simp only [resolveColor]; rw [h6]; decide
  · simp only [resolveColor]; rw [h7]; decide
  · simp only [resolveColor]; rw [h8]; decide
  · simp [resolveColor, COLORS, List.lookup,
      beq_eq_false_iff_ne.mpr h1, beq_eq_false_iff_ne.mpr h2,
      beq_eq_false_iff_ne.mpr h3, beq_eq_false_iff_ne.mpr h4,
      beq_eq_false_iff_ne.mpr h5, beq_eq_false_iff_ne.mpr h6,
      beq_eq_false_iff_ne.mpr h7, beq_eq_false_iff_ne.mpr h8]

/-! ## C6 — subtitle storage location -/

/-- C6: for every video in the batch, the subtitle path recorded by the
orchestrator is `<output-dir>/<base>.srt` exactly when `output_srt` or
`srt_only` is set, and `<temp-dir>/<base>.srt` otherwise (cli.py lines
80–82 and 125–126). -/
theorem subtitle_storage_location (cfg : Config) (tmp p : String)
    (videos : List String) (h : p ∈ videos) :
    List.lookup p (subtitlesMap cfg tmp videos) =
      some (if cfg.output_srt || cfg.srt_only
            then joinPath cfg.output_dir (filename p ++ ".srt")
            else joinPath tmp (filename p ++ ".srt")) := by
  rw [subtitlesMap_eq, lookup_map_self _ _ _ h]
  unfold srtPathIn
  by_cases hb : (cfg.output_srt || cfg.srt_only) = true <;> simp [hb]

/-- C6 witness: a two-video batch with `output_srt` set. -/
theorem subtitle_storage_location_witness :
    "a.mp4" ∈ ["a.mp4", "b.mp4"] ∧
      List.lookup "a.mp4"
          (subtitlesMap ⟨"out", true, false⟩ "/tmp" ["a.mp4", "b.mp4"]) =
        some (if (true : Bool) || false
              then joinPath "out" (filename "a.mp4" ++ ".srt")
              else joinPath "/tmp" (filename "a.mp4" ++ ".srt")) :=
  ⟨by decide, subtitle_storage_location ⟨"out", true, false⟩ "/tmp" "a.mp4" _ (by decide)⟩

/-! ## C7 — a compose failure aborts the batch -/

/-- C7 counterexample: with a media engine that fails exactly on the first
video, the composition loop of `main` (which has no per-video exception
handling) composes nothing at all: the second video's output is not
produced, so a compose failure is not isolated to the failing video. -/
theorem compose_failure_cex :
    composeRun (fun v => v == "a.mp4") "out" [("a.mp4", "sa.srt"), ("b.mp4", "sb.srt")] =
      ([], some "a.mp4")
    ∧ ¬ outPathFor "out" "b.mp4" ∈
        (composeRun (fun v => v == "a.mp4") "out"
          [("a.mp4", "sa.srt"), ("b.mp4", "sb.srt")]).1 := by
  constructor
  · rfl
  · intro h
    simp [composeRun, outPathFor] at h

/-- C7 amended: a `ComposeError` on one video aborts the whole remaining
batch — the composition loop produces exactly the outputs of the videos
before the first failing one and then propagates that failure; videos after
it are not processed (cli.py lines 87–97 contain no exception handler). -/
theorem compose_failure_aborts_batch (fails : String → Bool) (d : String)
    (pre : List (String × String)) (v : String × String) (post : List (String × String))
    (hpre : ∀ u ∈ pre, fails u.1 = false) (hv : fails v.1 = true) :
    composeRun fails d (pre ++ v :: post) =
      (pre.map fun pr => outPathFor d pr.1, some v.1) := by
  induction pre with
  | nil =>
    obtain ⟨p, sp⟩ := v
    simp only [List.nil_append, composeRun, List.map_nil]
    simp [hv]
  | cons u rest ih =>
    obtain ⟨p, sp⟩ := u
    have hu : fails p = false := hpre (p, sp) (by simp)
    have ihr := ih (fun w hw => hpre w (by simp [hw]))
    simp [composeRun, hu, ihr]

/-- C7 witness: one successful video before the failure, one after. -/
theorem compose_failure_aborts_batch_witness :
    (∀ u ∈ [(("a.mp4", "sa.srt") : String × String)], (fun v => v == "b.mp4") u.1 = false) ∧
      (fun v => v == "b.mp4") ("b.mp4", "sb.srt").1 = true ∧
      composeRun (fun v => v == "b.mp4") "out"
          ([("a.mp4", "sa.srt")] ++ ("b.mp4", "sb.srt") :: [("c.mp4", "sc.srt")]) =
        ([("a.mp4", "sa.srt")].map fun pr => outPathFor "out" pr.1, some "b.mp4") :=
  ⟨by decide, by decide,
    compose_failure_aborts_batch (fun v => v == "b.mp4") "out"
      [("a.mp4", "sa.srt")] ("b.mp4", "sb.srt") [("c.mp4", "sc.srt")]
      (by decide) (by decide)⟩

/-! ## C5 — subtitle-only mode -/

theorem filter_isCompose_extracts (f : String → String) (vs : List String) :
    (vs.map fun p => Event.extract p (f p)).filter isComposeEv = [] := by
  induction vs with
  | nil => rfl
  | cons p r ih => simp [isComposeEv, ih]

theorem filter_isCompose_subs (f g : String → String) (vs : List String) :
    (vs.flatMap fun p =>
      [Event.transcribe p (f p), Event.writeSub p (g p)]).filter isComposeEv = [] := by
  induction vs with
  | nil => rfl
  | cons p r ih => simp [isComposeEv, ih]

theorem filter_isWriteSub_extracts (f : String → String) (vs : List String) :
    (vs.map fun p => Event.extract p (f p)).filter isWriteSubEv = [] := by
  induction vs with
  | nil => rfl
  | cons p r ih => simp [isWriteSubEv, ih]

theorem filter_isWriteSub_subs (f g : String → String) (vs : List String) :
    (vs.flatMap fun p =>
      [Event.transcribe p (f p), Event.writeSub p (g p)]).filter isWriteSubEv =
      vs.map fun p => Event.writeSub p (g p) := by
  induction vs with
  | nil => rfl
  | cons p r ih => simp [isWriteSubEv, ih]

/-- C5: with `srt_only` set, the pipeline trace contains no composition
event at all, its subtitle-write events are exactly one per video in input
order (written under the output directory), and the orchestrator's
resulting map sends each video to its subtitle path (cli.py lines 84–85 and
121–141). -/
theorem srt_only_skips_compose (cfg : Config) (tmp : String) (videos : List String)
    (h : cfg.srt_only = true) :
    (pipelineTrace cfg tmp videos).filter isComposeEv = []
    ∧ (pipelineTrace cfg tmp videos).filter isWriteSubEv =
        videos.map (fun p => Event.writeSub p (joinPath cfg.output_dir (filename p ++ ".srt")))
    ∧ subtitlesMap cfg tmp videos =
        videos.map fun p => (p, joinPath cfg.output_dir (filename p ++ ".srt")) := by
  have hb : (cfg.output_srt || cfg.srt_only) = true := by rw [h]; simp
  have hsrt : ∀ p, srtPathIn (cfg.output_srt || cfg.srt_only) cfg.output_dir tmp p
      = joinPath cfg.output_dir (filename p ++ ".srt") := fun p => by
    simp [srtPathIn, hb]
  refine ⟨?_, ?_, ?_⟩
  · rw [pipelineTrace_eq]
    simp [h, List.filter_append, filter_isCompose_extracts, filter_isCompose_subs]
  · rw [pipelineTrace_eq]
    simp [h, List.filter_append, filter_isWriteSub_extracts, filter_isWriteSub_subs, hsrt]
    intro a _
    simp [srtPathIn]
  · rw [subtitlesMap_eq]
    simp [hsrt]

/-- C5 witness: a single-video batch in subtitle-only mode. -/
theorem srt_only_skips_compose_witness :
    (⟨"out", false, true⟩ : Config).srt_only = true
    ∧ ((pipelineTrace ⟨"out", false, true⟩ "/tmp" ["a.mp4"]).filter isComposeEv = []
      ∧ (pipelineTrace ⟨"out", false, true⟩ "/tmp" ["a.mp4"]).filter isWriteSubEv =
          ["a.mp4"].map (fun p => Event.writeSub p (joinPath "out" (filename p ++ ".srt")))
      ∧ subtitlesMap ⟨"out", false, true⟩ "/tmp" ["a.mp4"] =
          ["a.mp4"].map fun p => (p, joinPath "out" (filename p ++ ".srt"))) :=
  ⟨rfl, srt_only_skips_compose ⟨"out", false, true⟩ "/tmp" ["a.mp4"] rfl⟩

/-! ## C8 — ordering across the batch -/

/-- C8 counterexample: in a two-video batch the second video's audio
extraction (trace position 1) happens before the first video's
transcription (trace position 2), so the per-video grouping the claim
asserts — captured verbatim by `perVideoTrace` — does not describe the
trace the code produces. -/
theorem pipeline_stage_order_cex :
    (pipelineTrace ⟨"out", false, false⟩ "/tmp" ["a.mp4", "b.mp4"])[1]? =
        some (Event.extract "b.mp4" "/tmp/b.wav")
    ∧ (pipelineTrace ⟨"out", false, false⟩ "/tmp" ["a.mp4", "b.mp4"])[2]? =
        some (Event.transcribe "a.mp4" "/tmp/a.wav")
    ∧ pipelineTrace ⟨"out", false, false⟩ "/tmp" ["a.mp4", "b.mp4"] ≠
        perVideoTrace ⟨"out", false, false⟩ "/tmp" ["a.mp4", "b.mp4"] :=
  ⟨by decide, by decide, by decide⟩

/-- C8 amended: processing is single-threaded and sequential, but grouped
by stage, not by video: all audio extractions run first in input order,
then per video (in order) transcription followed by its subtitle write,
then — unless `srt_only` — all compositions in input order (cli.py lines
79–97: `get_audio` loops over the whole batch before `get_subtitles`
does). -/
theorem pipeline_stage_order (cfg : Config) (tmp : String) (videos : List String) :
    pipelineTrace cfg tmp videos =
      videos.map (fun p => Event.extract p (audioPathFor tmp p))
      ++ videos.flatMap (fun p =>
           [Event.transcribe p (audioPathFor tmp p),
            Event.writeSub p (srtPathIn (cfg.output_srt || cfg.srt_only) cfg.output_dir tmp p)])
      ++ (if cfg.srt_only then []
          else videos.map fun p =>
            Event.compose p (srtPathIn (cfg.output_srt || cfg.srt_only) cfg.output_dir tmp p)
              (outPathFor cfg.output_dir p)) :=
  pipelineTrace_eq cfg tmp videos

/-! ## C10 — base-name collisions overwrite within one run -/

/-- C10: two distinct input paths with the same base name are assigned the
identical audio and subtitle artifact paths; within a single run the audio
map records that shared path for both, and the later write overwrites the
earlier one's content at it (cli.py lines 107–117 and 124–126). -/
theorem basename_collision_overwrite (b : Bool) (dir tmp p q : String) (c1 c2 : Nat)
    (_hne : p ≠ q) (h : filename p = filename q) :
    audioPathFor tmp p = audioPathFor tmp q
    ∧ srtPathIn b dir tmp p = srtPathIn b dir tmp q
    ∧ (get_audioRun tmp [p, q]).1 =
        [(p, audioPathFor tmp p), (q, audioPathFor tmp p)]
    ∧ List.lookup (audioPathFor tmp p)
        (setFS (setFS [] (audioPathFor tmp p) c1) (audioPathFor tmp q) c2) = some c2 := by
  have ha : audioPathFor tmp p = audioPathFor tmp q := by
    unfold audioPathFor; rw [h]
  refine ⟨ha, ?_, ?_, ?_⟩
  · unfold srtPathIn; rw [h]
  · simp [get_audioRun_eq, ha]
  · rw [ha]
    simp [setFS, List.lookup]

/-- C10 witness: `a/talk.mp4` and `b/talk.avi` share the base name
`talk`. -/
theorem basename_collision_overwrite_witness :
    ("a/talk.mp4" : String) ≠ "b/talk.avi" ∧ filename "a/talk.mp4" = filename "b/talk.avi" ∧
      (audioPathFor "/tmp" "a/talk.mp4" = audioPathFor "/tmp" "b/talk.avi"
      ∧ srtPathIn false "out" "/tmp" "a/talk.mp4" = srtPathIn false "out" "/tmp" "b/talk.avi"
      ∧ (get_audioRun "/tmp" ["a/talk.mp4", "b/talk.avi"]).1 =
          [("a/talk.mp4", audioPathFor "/tmp" "a/talk.mp4"),
           ("b/talk.avi", audioPathFor "/tmp" "a/talk.mp4")]
      ∧ List.lookup (audioPathFor "/tmp" "a/talk.mp4")
          (setFS (setFS [] (audioPathFor "/tmp" "a/talk.mp4") 0)
            (audioPathFor "/tmp" "b/talk.avi") 1) = some 1) :=
  ⟨by decide, by decide,
    basename_collision_overwrite false "out" "/tmp" "a/talk.mp4" "b/talk.avi" 0 1
      (by decide) (by decide)⟩

/-! ## C9 — deterministic artifact paths, overwrite on re-run -/

/-- C9: every derived artifact path is the stated deterministic function of
the input's base name (audio `<temp>/<base>.wav`, subtitle
`<chosen-dir>/<base>.srt`, composed video `<output-dir>/<base>.mp4`), two
inputs with the same base name get identical paths, and re-running the
whole pipeline adds no new path to the file system: the second run's writes
all land on paths the first run already created (cli.py lines 88–97 and
109–114, `overwrite_output=True`). -/
theorem artifact_paths_deterministic (cfg : Config) (tmp p q : String)
    (videos : List String) (h : filename p = filename q) :
    (audioPathFor tmp p = joinPath tmp (filename p ++ ".wav")
      ∧ srtPathIn cfg.output_srt cfg.output_dir tmp p =
          joinPath (if cfg.output_srt then cfg.output_dir else tmp) (filename p ++ ".srt")
      ∧ outPathFor cfg.output_dir p = joinPath cfg.output_dir (filename p ++ ".mp4"))
    ∧ (audioPathFor tmp p = audioPathFor tmp q
      ∧ srtPathIn cfg.output_srt cfg.output_dir tmp p =
          srtPathIn cfg.output_srt cfg.output_dir tmp q
      ∧ outPathFor cfg.output_dir p = outPathFor cfg.output_dir q)
    ∧ keysAfter (keysAfter [] (runWrites cfg tmp videos)) (runWrites cfg tmp videos) =
        keysAfter [] (runWrites cfg tmp videos) := by
  refine ⟨⟨rfl, rfl, rfl⟩, ⟨?_, ?_, ?_⟩, ?_⟩
  · unfold audioPathFor; rw [h]
  · unfold srtPathIn; rw [h]
  · unfold outPathFor; rw [h]
  · exact keysAfter_of_mem _ _ (fun w hw => mem_keysAfter _ _ _ hw)

/-- C9 witness: `a/talk.mp4` and `b/talk.mkv` share the base name `talk`;
the batch re-run is over a one-video batch. -/
theorem artifact_paths_deterministic_witness :
    filename "a/talk.mp4" = filename "b/talk.mkv" ∧
      ((audioPathFor "/tmp" "a/talk.mp4" = joinPath "/tmp" (filename "a/talk.mp4" ++ ".wav")
        ∧ srtPathIn false "out" "/tmp" "a/talk.mp4" =
            joinPath (if false then "out" else "/tmp") (filename "a/talk.mp4" ++ ".srt")
        ∧ outPathFor "out" "a/talk.mp4" = joinPath "out" (filename "a/talk.mp4" ++ ".mp4"))
      ∧ (audioPathFor "/tmp" "a/talk.mp4" = audioPathFor "/tmp" "b/talk.mkv"
        ∧ srtPathIn false "out" "/tmp" "a/talk.mp4" = srtPathIn false "out" "/tmp" "b/talk.mkv"
        ∧ outPathFor "out" "a/talk.mp4" = outPathFor "out" "b/talk.mkv")
      ∧ keysAfter (keysAfter [] (runWrites ⟨"out", false, false⟩ "/tmp" ["talk.mp4"]))
            (runWrites ⟨"out", false, false⟩ "/tmp" ["talk.mp4"]) =
          keysAfter [] (runWrites ⟨"out", false, false⟩ "/tmp" ["talk.mp4"])) :=
  ⟨by decide,
    artifact_paths_deterministic ⟨"out", false, false⟩ "/tmp" "a/talk.mp4" "b/talk.mkv"
      ["talk.mp4"] (by decide)⟩

/-! ## Decimal digit lemmas -/

theorem digitsAux_irrel (f : Nat) : ∀ g n, n < f → n < g → digitsAux f n = digitsAux g n := by
  induction f with
  | zero => intro g n h; omega
  | succ f ih =>
    intro g n hf hg
    cases g with
    | zero => omega
    | succ g =>
      simp only [digitsAux]
      by_cases h10 : n < 10
      · simp [h10]
      · simp only [h10, if_false]
        rw [ih g (n / 10) (by omega) (by omega)]

theorem digitsAux_succ (f n : Nat) :
    digitsAux (f + 1) n =
      if n < 10 then [digitChar n] else digitsAux f (n / 10) ++ [digitChar (n % 10)] := rfl

theorem natDigits_eq (n : Nat) :
    natDigits n =
      if n < 10 then [digitChar n] else natDigits (n / 10) ++ [digitChar (n % 10)] := by
  unfold natDigits
  conv_lhs => rw [digitsAux_succ]
  by_cases h : n < 10
  · simp [h]
  · simp only [h, if_false]
    rw [digitsAux_irrel n (n / 10 + 1) (n / 10) (by omega) (by omega)]

theorem digitChar_toNat {d : Nat} (h : d < 10) : (digitChar d).toNat = 48 + d := by
  interval_cases d <;> decide

theorem digitChar_isDigit {d : Nat} (h : d < 10) : (digitChar d).isDigit = true := by
  interval_cases d <;> decide

theorem natDigits_isDigit (n : Nat) : ∀ c ∈ natDigits n, c.isDigit = true := by
  induction n using Nat.strong_induction_on with
  | _ n ih =>
    rw [natDigits_eq]
    by_cases h : n < 10
    · simp only [h, if_true, List.mem_singleton]
      rintro c rfl
      exact digitChar_isDigit h
    · simp only [h, if_false, List.mem_append, List.mem_singleton]
      rintro c (hc | rfl)
      · exact ih (n / 10) (by omega) c hc
      · exact digitChar_isDigit (by omega)

theorem natDigits_ne_nil (n : Nat) : natDigits n ≠ [] := by
  rw [natDigits_eq]
  by_cases h : n < 10 <;> simp [h]

theorem natDigits_length_le_two {n : Nat} (h : n < 100) : (natDigits n).length ≤ 2 := by
  rw [natDigits_eq]
  by_cases h10 : n < 10
  · simp [h10]
  · have : n / 10 < 10 := by omega
    simp only [h10, if_false, List.length_append, List.length_singleton]
    rw [natDigits_eq]
    simp [this]

theorem natDigits_length_le_three {n : Nat} (h : n < 1000) : (natDigits n).length ≤ 3 := by
  rw [natDigits_eq]
  by_cases h10 : n < 10
  · simp [h10]
  · have : n / 10 < 100 := by omega
    have h2 := natDigits_length_le_two this
    simp only [h10, if_false, List.length_append, List.length_singleton]
    omega

theorem charsVal_from (a : Nat) (cs : List Char) :
    cs.foldl (fun a c => a * 10 + (c.toNat - 48)) a =
      List.foldl (fun a c => a * 10 + (c.toNat - 48)) a cs := rfl

theorem charsVal_natDigits (n : Nat) : charsVal (natDigits n) = n := by
  induction n using Nat.strong_induction_on with
  | _ n ih =>
    rw [natDigits_eq]
    by_cases h : n < 10
    · simp only [h, if_true, charsVal, List.foldl_cons, List.foldl_nil]
      rw [digitChar_toNat h]
      omega
    · simp only [h, if_false, charsVal, List.foldl_append, List.foldl_cons, List.foldl_nil]
      have hv := ih (n / 10) (by omega)
      unfold charsVal at hv
      rw [hv, digitChar_toNat (show n % 10 < 10 by omega)]
      omega

theorem charsVal_leading_zeros (k : Nat) (cs : List Char) :
    charsVal (List.replicate k '0' ++ cs) = charsVal cs := by
  induction k with
  | zero => simp
  | succ k ih =>
    simp only [List.replicate_succ, List.cons_append, charsVal, List.foldl_cons]
    have : (0 : Nat) * 10 + ('0'.toNat - 48) = 0 := by decide
    rw [this]
    exact ih

theorem charsVal_padDigits (w n : Nat) : charsVal (padDigits w n) = n := by
  unfold padDigits
  rw [charsVal_leading_zeros, charsVal_natDigits]

theorem padDigits_isDigit (w n : Nat) : ∀ c ∈ padDigits w n, c.isDigit = true := by
  unfold padDigits
  intro c hc
  rcases List.mem_append.mp hc with hz | hd
  · rw [List.eq_of_mem_replicate hz]; decide
  · exact natDigits_isDigit n c hd

theorem padDigits_length (w n : Nat) (h : (natDigits n).length ≤ w) :
    (padDigits w n).length = w := by
  unfold padDigits
  simp only [List.length_append, List.length_replicate]
  omega

theorem padDigits_length_ge (w n : Nat) : w ≤ (padDigits w n).length := by
  unfold padDigits
  simp only [List.length_append, List.length_replicate]
  omega

theorem padDigits_ne_nil (w n : Nat) : padDigits w n ≠ [] := by
  unfold padDigits
  simp [natDigits_ne_nil n]

theorem isDigit_ne_special {c : Char} (h : c.isDigit = true) :
    c ≠ ':' ∧ c ≠ ',' ∧ c ≠ ' ' ∧ c ≠ '\n' ∧ c ≠ '-' ∧ c ≠ '>' := by
  refine ⟨?_, ?_, ?_, ?_, ?_, ?_⟩ <;> (rintro rfl; exact absurd h (by decide))

theorem allDigits_padDigits (w n : Nat) : allDigits (padDigits w n) = true := by
  unfold allDigits
  rw [List.all_eq_true]
  intro c hc
  simp [padDigits_isDigit w n c hc]

/-! ## Reader lemmas -/

theorem takeLine_append {l : List Char} (r : List Char) (h : '\n' ∉ l) :
    takeLine (l ++ '\n' :: r) = (l, r) := by
  induction l with
  | nil => simp [takeLine]
  | cons c cs ih =>
    have hc : ¬ c = '\n' := fun he => h (he ▸ List.mem_cons_self c cs)
    have ht := ih (fun hm => h (List.mem_cons_of_mem c hm))
    simp [takeLine, hc, ht]

theorem breakAt_append {ch : Char} {l : List Char} (r : List Char) (h : ch ∉ l) :
    breakAt ch (l ++ ch :: r) = some (l, r) := by
  induction l with
  | nil => simp [breakAt]
  | cons c cs ih =>
    have hc : ¬ c = ch := fun he => h (he ▸ List.mem_cons_self c cs)
    have ht := ih (fun hm => h (List.mem_cons_of_mem c hm))
    simp [breakAt, hc, ht]

theorem takeTextLines_line {l : List Char} (h : '\n' ∉ l) :
    ∀ cur r, cur.reverse ++ l ≠ [] →
      takeTextLines cur (l ++ '\n' :: r) =
        ((cur.reverse ++ l) :: (takeTextLines [] r).1, (takeTextLines [] r).2) := by
  induction l with
  | nil =>
    intro cur r hne
    have hcur : ¬ cur = [] := by
      intro he; subst he; simp at hne
    simp [takeTextLines, hcur]
  | cons c cs ih =>
    intro cur r hne
    have hc : ¬ c = '\n' := fun he => h (he ▸ List.mem_cons_self c cs)
    have ht := ih (fun hm => h (List.mem_cons_of_mem c hm)) (c :: cur) r (by simp)
    simp only [List.cons_append, takeTextLines, hc, if_false, List.append_eq]
    rw [ht]
    simp

theorem takeTextLines_blank (tail : List Char) :
    takeTextLines [] ('\n' :: tail) = ([], tail) := by
  simp [takeTextLines]

theorem takeTextLines_blocks (lines : List (List Char)) (tail : List Char)
    (hne : lines ≠ []) (hok : ∀ l ∈ lines, l ≠ [] ∧ '\n' ∉ l) :
    takeTextLines [] (joinLines lines ++ '\n' :: '\n' :: tail) = (lines, tail) := by
  induction lines with
  | nil => exact absurd rfl hne
  | cons l ls ih =>
    obtain ⟨hl, hnl⟩ := hok l (by simp)
    cases ls with
    | nil =>
      have := takeTextLines_line hnl [] ('\n' :: tail) (by simpa using hl)
      simp only [joinLines]
      rw [this, takeTextLines_blank]
      simp
    | cons l2 ls2 =>
      have hj : joinLines (l :: l2 :: ls2) = l ++ '\n' :: joinLines (l2 :: ls2) := rfl
      rw [hj]
      have harr : (l ++ '\n' :: joinLines (l2 :: ls2)) ++ '\n' :: '\n' :: tail =
          l ++ '\n' :: (joinLines (l2 :: ls2) ++ '\n' :: '\n' :: tail) := by
        simp
      rw [harr]
      have := takeTextLines_line hnl [] (joinLines (l2 :: ls2) ++ '\n' :: '\n' :: tail)
        (by simpa using hl)
      rw [this, ih (by simp) (fun u hu => hok u (by simp [hu]))]
      simp

theorem tsChars_mem {t : Nat} : ∀ c ∈ tsChars t, c.isDigit = true ∨ c = ':' ∨ c = ',' := by
  intro c hc
  unfold tsChars at hc
  simp only [List.mem_append, List.mem_cons] at hc
  rcases hc with h1 | rfl | h2 | rfl | h3 | rfl | h4
  · exact Or.inl (padDigits_isDigit _ _ c h1)
  · exact Or.inr (Or.inl rfl)
  · exact Or.inl (padDigits_isDigit _ _ c h2)
  · exact Or.inr (Or.inl rfl)
  · exact Or.inl (padDigits_isDigit _ _ c h3)
  · exact Or.inr (Or.inr rfl)
  · exact Or.inl (padDigits_isDigit _ _ c h4)

theorem tsChars_no_newline {t : Nat} : '\n' ∉ tsChars t := by
  intro h
  rcases tsChars_mem '\n' h with hd | h | h
  · exact absurd hd (by decide)
  · exact absurd h (by decide)
  · exact absurd h (by decide)

theorem tsChars_no_space {t : Nat} : ' ' ∉ tsChars t := by
  intro h
  rcases tsChars_mem ' ' h with hd | h | h
  · exact absurd hd (by decide)
  · exact absurd h (by decide)
  · exact absurd h (by decide)

theorem no_colon_padDigits (w n : Nat) : ':' ∉ padDigits w n := by
  intro h
  exact absurd (padDigits_isDigit w n ':' h) (by decide)

theorem no_comma_padDigits (w n : Nat) : ',' ∉ padDigits w n := by
  intro h
  exact absurd (padDigits_isDigit w n ',' h) (by decide)

theorem parseTimestamp_tsChars (t : Nat) : parseTimestamp (tsChars t) = some t := by
  unfold parseTimestamp tsChars
  rw [breakAt_append _ (no_colon_padDigits 2 (t / 3600000))]
  simp only [Option.bind_eq_bind, Option.some_bind]
  rw [breakAt_append _ (no_colon_padDigits 2 (t / 60000 % 60))]
  simp only [Option.some_bind]
  rw [breakAt_append _ (no_comma_padDigits 2 (t / 1000 % 60))]
  simp only [Option.some_bind]
  have hm : (natDigits (t / 60000 % 60)).length ≤ 2 := natDigits_length_le_two (by omega)
  have hs : (natDigits (t / 1000 % 60)).length ≤ 2 := natDigits_length_le_two (by omega)
  have hl : (natDigits (t % 1000)).length ≤ 3 := natDigits_length_le_three (by omega)
  rw [if_pos]
  · rw [charsVal_padDigits, charsVal_padDigits, charsVal_padDigits, charsVal_padDigits]
    congr 1
    omega
  · refine ⟨padDigits_ne_nil _ _, allDigits_padDigits _ _, padDigits_length _ _ hm,
      allDigits_padDigits _ _, padDigits_length _ _ hs, allDigits_padDigits _ _,
      padDigits_length _ _ hl, allDigits_padDigits _ _⟩

theorem parseTsLine_arrow (t1 t2 : Nat) :
    parseTsLine (tsChars t1 ++ arrowSep ++ tsChars t2) = some (t1, t2) := by
  unfold parseTsLine
  have harr : tsChars t1 ++ arrowSep ++ tsChars t2 =
      tsChars t1 ++ ' ' :: ('-' :: '-' :: '>' :: ' ' :: tsChars t2) := by
    simp [arrowSep]
  rw [harr, breakAt_append _ (tsChars_no_space (t := t1))]
  simp only [Option.bind_eq_bind, Option.some_bind]
  rw [parseTimestamp_tsChars, parseTimestamp_tsChars]
  rfl

theorem allDigits_natDigits (i : Nat) : allDigits (natDigits i) = true := by
  unfold allDigits
  rw [List.all_eq_true]
  intro c hc
  simp [natDigits_isDigit i c hc]

theorem parseIndex_natDigits (i : Nat) : parseIndex (natDigits i) = some i := by
  unfold parseIndex
  rw [if_pos ⟨natDigits_ne_nil i, allDigits_natDigits i⟩, charsVal_natDigits]

theorem natDigits_no_newline (i : Nat) : '\n' ∉ natDigits i := fun h =>
  absurd (natDigits_isDigit i _ h) (by decide)

theorem tsLine_no_newline (t1 t2 : Nat) :
    '\n' ∉ tsChars t1 ++ arrowSep ++ tsChars t2 := by
  intro h
  rcases List.mem_append.mp h with h | h
  · rcases List.mem_append.mp h with h | h
    · exact tsChars_no_newline h
    · revert h; decide
  · exact tsChars_no_newline h

theorem strMk_data (s : String) : String.mk s.data = s := rfl

theorem blockChars_append (i : Nat) (s : Segment) (W : List Char) :
    blockChars i s ++ W =
      natDigits i ++ '\n' ::
        ((tsChars s.start ++ arrowSep ++ tsChars s.stop) ++ '\n' ::
          (s.text.data ++ '\n' :: '\n' :: W)) := by
  unfold blockChars
  simp

theorem parseOneBlock_block (i : Nat) (s : Segment) (W : List Char) (hok : TextOk s.text) :
    parseOneBlock (blockChars i s ++ W) = some ((s.start, s.stop, s.text), W) := by
  obtain ⟨lines, hlne, hlok, hdata⟩ := hok
  rw [blockChars_append]
  unfold parseOneBlock
  rw [takeLine_append _ (natDigits_no_newline i)]
  simp only [parseIndex_natDigits]
  rw [takeLine_append (s.text.data ++ '\n' :: '\n' :: W) (tsLine_no_newline s.start s.stop)]
  simp only [parseTsLine_arrow]
  rw [hdata, takeTextLines_blocks lines _ hlne hlok]
  rw [← hdata, strMk_data]

theorem parseBlocks_write (segs : List Segment) :
    ∀ fuel i, segs.length ≤ fuel → (∀ u ∈ segs, TextOk u.text) →
      parseBlocks fuel (writeCharsFrom i segs) =
        some (segs.map fun u => (u.start, u.stop, u.text)) := by
  induction segs with
  | nil =>
    intro fuel i _ _
    cases fuel <;> rfl
  | cons s rest ih =>
    intro fuel i hf hok
    cases fuel with
    | zero => simp at hf
    | succ f =>
      have hr : rest.length ≤ f := by simp at hf; omega
      have hcs : blockChars i s ++ writeCharsFrom (i + 1) rest ≠ [] := by
        rw [blockChars_append]
        simp
      show parseBlocks (f + 1) (blockChars i s ++ writeCharsFrom (i + 1) rest) = _
      simp only [parseBlocks]
      rw [if_neg hcs, parseOneBlock_block i s _ (hok s (by simp))]
      simp [ih f (i + 1) hr (fun u hu => hok u (by simp [hu]))]

theorem length_writeCharsFrom (segs : List Segment) :
    ∀ i, segs.length ≤ (writeCharsFrom i segs).length := by
  induction segs with
  | nil => intro i; simp [writeCharsFrom]
  | cons s rest ih =>
    intro i
    have hr := ih (i + 1)
    show (s :: rest).length ≤ (blockChars i s ++ writeCharsFrom (i + 1) rest).length
    rw [blockChars_append]
    simp only [List.length_append, List.length_cons]
    simp only [List.length_cons] at *
    omega

/-! ## C1 — write then re-parse -/

/-- C1 counterexample: the round-trip fails for a segment whose text
contains a blank line. The writer emits the text verbatim, so the written
file contains a blank line inside the block; the blank line is the format's
block terminator, so the conformant reader cannot recover the original
`(start, end, text)` triple — here the parse fails outright. -/
theorem write_parse_roundtrip_cex :
    parseSrt (write_srt [⟨0, 0, 1000, "a\n\nb"⟩]) = none
    ∧ parseSrt (write_srt [⟨0, 0, 1000, "a\n\nb"⟩]) ≠
        some ([(⟨0, 0, 1000, "a\n\nb"⟩ : Segment)].map fun u => (u.start, u.stop, u.text)) :=
  ⟨by decide, by decide⟩

/-- C1 amended: for every non-empty segment sequence whose texts are
non-empty and free of blank lines (each text is a newline-separated
sequence of non-empty lines — the only texts the block format can carry),
writing with the subtitle writer and re-parsing with the conformant reader
yields exactly the original ordered `(start, stop, text)` values; the times
are recovered to the millisecond (the format's resolution), hence within
the claim's one-millisecond tolerance. -/
theorem write_parse_roundtrip (segs : List Segment) (_hne : segs ≠ [])
    (hok : ∀ u ∈ segs, TextOk u.text) :
    parseSrt (write_srt segs) = some (segs.map fun u => (u.start, u.stop, u.text)) := by
  show parseBlocks (writeCharsFrom 1 segs).length (writeCharsFrom 1 segs) = _
  exact parseBlocks_write segs _ 1 (length_writeCharsFrom segs 1) hok

/-- C1 witness: a two-segment file with single-line texts. -/
theorem write_parse_roundtrip_witness :
    ([⟨3, 0, 1000, "Hello"⟩, ⟨9, 1000, 3723456, "World"⟩] : List Segment) ≠ []
    ∧ (∀ u ∈ ([⟨3, 0, 1000, "Hello"⟩, ⟨9, 1000, 3723456, "World"⟩] : List Segment),
        TextOk u.text)
    ∧ parseSrt (write_srt [⟨3, 0, 1000, "Hello"⟩, ⟨9, 1000, 3723456, "World"⟩]) =
        some [(0, 1000, "Hello"), (1000, 3723456, "World")] := by
  have hok : ∀ u ∈ ([⟨3, 0, 1000, "Hello"⟩, ⟨9, 1000, 3723456, "World"⟩] : List Segment),
      TextOk u.text := by
    intro u hu
    simp only [List.mem_cons, List.not_mem_nil, or_false] at hu
    rcases hu with rfl | rfl
    · exact ⟨[['H', 'e', 'l', 'l', 'o']], by decide, by decide, by decide⟩
    · exact ⟨[['W', 'o', 'r', 'l', 'd']], by decide, by decide, by decide⟩
  exact ⟨by decide, hok, write_parse_roundtrip _ (by decide) hok⟩

/-! ## C2 — the emitted block format -/

theorem writeCharsFrom_join (segs : List Segment) :
    ∀ i, writeCharsFrom i segs =
      ((List.enumFrom i segs).map fun pr => blockChars pr.1 pr.2).flatten := by
  induction segs with
  | nil => intro i; rfl
  | cons s rest ih =>
    intro i
    simp only [writeCharsFrom, List.enumFrom, List.map_cons, List.flatten_cons]
    rw [ih (i + 1)]

theorem writeCharsFrom_id_irrel (f : Nat → Nat) (segs : List Segment) :
    ∀ i, writeCharsFrom i (segs.map fun u => { u with id := f u.id }) =
      writeCharsFrom i segs := by
  induction segs with
  | nil => intro i; rfl
  | cons s rest ih =>
    intro i
    simp only [List.map_cons, writeCharsFrom]
    rw [ih (i + 1)]
    rfl

/-- C2: the writer's output is exactly the concatenation of one block per
segment, indexed positionally from 1 (`enumFrom 1`); each block is the
index line, the ` --> ` timestamp line, the text line(s) and a trailing
blank line; any identifier carried by a segment is ignored; and every
rendered timestamp is `HH:MM:SS,mmm` — zero-padded two-digit minute and
second fields below 60, a three-digit millisecond field below 1000, an
all-digits hour field of at least two digits, colons between the time
fields and a comma before the milliseconds. Byte-identical output on
identical input holds because `write_srt` is a pure function of the
segment list. -/
theorem write_srt_format (segs : List Segment) :
    (write_srt segs).data =
        ((List.enumFrom 1 segs).map fun pr => blockChars pr.1 pr.2).flatten
    ∧ (∀ i : Nat, ∀ u : Segment, blockChars i u =
        natDigits i ++ '\n' ::
          (tsChars u.start ++ arrowSep ++ tsChars u.stop ++ '\n' ::
            (u.text.data ++ ['\n', '\n'])))
    ∧ (∀ f : Nat → Nat,
        write_srt (segs.map fun u => { u with id := f u.id }) = write_srt segs)
    ∧ (∀ t : Nat, ∃ H M S L : Nat, M < 60 ∧ S < 60 ∧ L < 1000
        ∧ (padDigits 2 M).length = 2 ∧ (padDigits 2 S).length = 2
        ∧ (padDigits 3 L).length = 3 ∧ 2 ≤ (padDigits 2 H).length
        ∧ allDigits (padDigits 2 H) = true ∧ allDigits (padDigits 2 M) = true
        ∧ allDigits (padDigits 2 S) = true ∧ allDigits (padDigits 3 L) = true
        ∧ tsChars t =
            padDigits 2 H ++ ':' ::
              (padDigits 2 M ++ ':' :: (padDigits 2 S ++ ',' :: padDigits 3 L))) := by
  refine ⟨writeCharsFrom_join segs 1, fun i u => rfl, ?_, ?_⟩
  · intro f
    show String.mk _ = String.mk _
    rw [writeCharsFrom_id_irrel f segs 1]
  · intro t
    refine ⟨t / 3600000, t / 60000 % 60, t / 1000 % 60, t % 1000,
      by omega, by omega, by omega,
      padDigits_length 2 _ (natDigits_length_le_two (by omega)),
      padDigits_length 2 _ (natDigits_length_le_two (by omega)),
      padDigits_length 3 _ (natDigits_length_le_three (by omega)),
      padDigits_length_ge 2 _,
      allDigits_padDigits _ _, allDigits_padDigits _ _,
      allDigits_padDigits _ _, allDigits_padDigits _ _, rfl⟩

end AutoSubtitle
